import Mathlib

/-
Verification of the bustub storage substrate sources:
  src/primer/trie.cpp               (persistent copy-on-write trie)
  src/buffer/buffer_pool_manager.cpp (buffer pool manager)
  src/buffer/lru_k_replacer.cpp     (LRU-K replacer, same translation unit)
  src/storage/page/page_guard.cpp   (scoped page guards)

Each C++ function is shallowly embedded as an executable Lean definition,
keeping the source's control flow.  std::map and std::unordered_map are
embedded as association lists (std::map additionally keeps keys sorted on
insertion); shared_ptr graphs become plain inductive values; C++ exceptions
become Except results.
-/

set_option autoImplicit false

namespace Bustub

universe u

/-! ## Association-list maps

Shared embedding of std::map / std::unordered_map.  findA is map::find,
setA is operator[] assignment on a possibly-present key (replace in place,
append when absent), eraseA is map::erase, insertSortedA is operator[]
insertion of a fresh key into a std::map (keys kept in ascending order). -/

variable {κ : Type} {α : Type u}

def findA [DecidableEq κ] : List (κ × α) → κ → Option α
  | [], _ => none
  | (k, v) :: rest, key => if k = key then some v else findA rest key

def setA [DecidableEq κ] : List (κ × α) → κ → α → List (κ × α)
  | [], key, val => [(key, val)]
  | (k, v) :: rest, key, val =>
      if k = key then (key, val) :: rest else (k, v) :: setA rest key val

def eraseA [DecidableEq κ] : List (κ × α) → κ → List (κ × α)
  | [], _ => []
  | (k, v) :: rest, key => if k = key then rest else (k, v) :: eraseA rest key

def insertSortedA : List (Nat × α) → Nat → α → List (Nat × α)
  | [], key, val => [(key, val)]
  | (k, v) :: rest, key, val =>
      if key < k then (key, val) :: (k, v) :: rest
      else if key = k then (key, val) :: rest
      else (k, v) :: insertSortedA rest key val

@[simp] theorem findA_nil [DecidableEq κ] (key : κ) :
    findA ([] : List (κ × α)) key = none := rfl

@[simp] theorem findA_cons [DecidableEq κ] (k : κ) (v : α) (rest : List (κ × α)) (key : κ) :
    findA ((k, v) :: rest) key = if k = key then some v else findA rest key := rfl

theorem findA_setA_self [DecidableEq κ] (l : List (κ × α)) (key : κ) (val : α) :
    findA (setA l key val) key = some val := by
  induction l with
  | nil => simp [setA]
  | cons hd tl ih =>
      obtain ⟨k, v⟩ := hd
      by_cases hk : k = key
      · simp [setA, hk]
      · simp [setA, hk, ih]

theorem findA_setA_ne [DecidableEq κ] (l : List (κ × α)) (key key2 : κ) (val : α)
    (hne : key ≠ key2) : findA (setA l key val) key2 = findA l key2 := by
  induction l with
  | nil => simp [setA, hne]
  | cons hd tl ih =>
      obtain ⟨k, v⟩ := hd
      by_cases hk : k = key
      · subst hk; simp [setA, hne]
      · simp [setA, hk, ih]

theorem setA_self [DecidableEq κ] (l : List (κ × α)) (key : κ) (val : α)
    (h : findA l key = some val) : setA l key val = l := by
  induction l with
  | nil => simp [findA] at h
  | cons hd tl ih =>
      obtain ⟨k, v⟩ := hd
      by_cases hk : k = key
      · subst hk
        simp [findA] at h
        simp [setA, h]
      · simp [findA, hk] at h
        simp [setA, hk, ih h]

theorem findA_some_mem_keys [DecidableEq κ] (l : List (κ × α)) (key : κ) (v : α)
    (h : findA l key = some v) : key ∈ l.map Prod.fst := by
  induction l with
  | nil => simp [findA] at h
  | cons hd tl ih =>
      obtain ⟨k, w⟩ := hd
      by_cases hk : k = key
      · simp [hk]
      · simp only [findA_cons, if_neg hk] at h
        simp [ih h]

theorem findA_none_not_mem_keys [DecidableEq κ] (l : List (κ × α)) (key : κ)
    (h : findA l key = none) : key ∉ l.map Prod.fst := by
  intro hmem
  induction l with
  | nil => simp at hmem
  | cons hd tl ih =>
      obtain ⟨k, v⟩ := hd
      by_cases hk : k = key
      · simp [findA_cons, hk] at h
      · simp only [findA_cons, if_neg hk] at h
        simp only [List.map_cons, List.mem_cons] at hmem
        rcases hmem with h1 | h1
        · exact hk h1.symm
        · exact ih h h1

theorem keys_setA [DecidableEq κ] (l : List (κ × α)) (key : κ) (val : α) :
    (setA l key val).map Prod.fst =
      if (findA l key).isSome then l.map Prod.fst else l.map Prod.fst ++ [key] := by
  induction l with
  | nil => simp [setA]
  | cons hd tl ih =>
      obtain ⟨k, v⟩ := hd
      by_cases hk : k = key
      · simp [setA, hk]
      · simp only [setA, if_neg hk, findA_cons, List.map_cons, ih]
        by_cases hf : (findA tl key).isSome
        · simp [hf, hk]
        · simp [hf, hk]

theorem keys_setA_nodup [DecidableEq κ] (l : List (κ × α)) (key : κ) (val : α)
    (h : ((l.map Prod.fst).Nodup)) : ((setA l key val).map Prod.fst).Nodup := by
  rw [keys_setA]
  cases hf : findA l key with
  | some v => simpa [hf] using h
  | none =>
      simp only [hf, Option.isSome_none, Bool.false_eq_true, if_false]
      rw [List.nodup_append]
      refine ⟨h, List.nodup_singleton key, ?_⟩
      intro a ha hb
      simp only [List.mem_singleton] at hb
      subst hb
      exact findA_none_not_mem_keys l a hf ha

theorem findA_eq_none_of_not_mem_keys [DecidableEq κ] (l : List (κ × α)) (key : κ)
    (h : key ∉ l.map Prod.fst) : findA l key = none := by
  cases hf : findA l key with
  | none => rfl
  | some v => exact absurd (findA_some_mem_keys l key v hf) h

theorem findA_eraseA_nodup [DecidableEq κ] (l : List (κ × α)) (key : κ)
    (h : ((l.map Prod.fst).Nodup)) : findA (eraseA l key) key = none := by
  induction l with
  | nil => simp [eraseA]
  | cons hd tl ih =>
      obtain ⟨k, v⟩ := hd
      rw [List.map_cons, List.nodup_cons] at h
      by_cases hk : k = key
      · subst hk
        simp only [eraseA, if_pos rfl]
        exact findA_eq_none_of_not_mem_keys tl k h.1
      · simp [eraseA, hk, findA_cons, ih h.2]

/-! ## Persistent trie (src/primer/trie.cpp)

A TrieNode owns an ordered map of child edges (std::map of char to
shared_ptr, embedded as an association list keyed by Nat) and, in the
TrieNodeWithValue subclass, a value.  The two C++ node variants are merged
into one constructor with an Option value; is_value_node_ corresponds to
value?.isSome, and the virtual Clone (which copies children and value
alike) is the identity on this pure representation.  Values are embedded
at a single type V; Trie::Get's dynamic_cast type check always succeeds
at that type and is therefore not represented. -/

inductive TrieNode (V : Type) : Type where
  | mk : List (Nat × TrieNode V) → Option V → TrieNode V

namespace TrieNode

variable {V : Type}

def children : TrieNode V → List (Nat × TrieNode V)
  | mk cs _ => cs

def value? : TrieNode V → Option V
  | mk _ v => v

@[simp] theorem children_mk (cs : List (Nat × TrieNode V)) (v : Option V) :
    (mk cs v).children = cs := rfl

@[simp] theorem value_mk (cs : List (Nat × TrieNode V)) (v : Option V) :
    (mk cs v).value? = v := rfl

theorem eta (n : TrieNode V) : mk n.children n.value? = n := by
  cases n; rfl

end TrieNode

structure Trie (V : Type) : Type where
  root : Option (TrieNode V)

namespace Trie

variable {V : Type}

/-- Children of an optional node: the C++ code reads cur_trie->children_
when cur_trie is non-null and uses an empty map otherwise. -/
def childrenOf : Option (TrieNode V) → List (Nat × TrieNode V)
  | some n => n.children
  | none => []

@[simp] theorem childrenOf_some (n : TrieNode V) : childrenOf (some n) = n.children := rfl
@[simp] theorem childrenOf_none : childrenOf (none : Option (TrieNode V)) = [] := rfl

/-- Walk of Trie::Get from a node: follow one edge per key character,
returning none on a missing edge, and the node's value at the end
(is_value_node_ false or absent value both yield nullptr in C++). -/
def getNode : TrieNode V → List Nat → Option V
  | n, [] => n.value?
  | n, c :: rest =>
      match findA n.children c with
      | some child => getNode child rest
      | none => none

/-- Trie::Get: empty root returns nullptr, otherwise walk from the root. -/
def get (t : Trie V) (key : List Nat) : Option V :=
  match t.root with
  | none => none
  | some n => getNode n key

/-- Clone of an optional original node: Clone() copies children and value
alike; a null original is replaced by a fresh empty TrieNode. -/
def cloneOf : Option (TrieNode V) → TrieNode V
  | some n => n
  | none => TrieNode.mk [] none

@[simp] theorem cloneOf_some (n : TrieNode V) : cloneOf (some n) = n := rfl
@[simp] theorem cloneOf_none : cloneOf (none : Option (TrieNode V)) = TrieNode.mk [] none := rfl

/-- Recursive form of the Trie::Put construction loop.  At each position,
old? is the original node there (cur_trie in the C++ loop, null once the
original path runs out).  An interior step clones the original node (or
starts an empty TrieNode) and overwrites the edge for the next character;
the terminal step builds a TrieNodeWithValue keeping the original
children.  The empty-key special case at the top of Trie::Put is the
key = [] equation applied at the root. -/
def putNode (old? : Option (TrieNode V)) : List Nat → V → TrieNode V
  | [], v => TrieNode.mk (childrenOf old?) (some v)
  | c :: rest, v =>
      TrieNode.mk
        (setA (cloneOf old?).children c
          (putNode (old?.bind fun n => findA n.children c) rest v))
        (cloneOf old?).value?

/-- Trie::Put returns the trie rooted at the rebuilt path. -/
def put (t : Trie V) (key : List Nat) (v : V) : Trie V :=
  Trie.mk (some (putNode t.root key v))

/-- Inner walk of Trie::Remove for a non-empty key below a node n.
Returns none when an edge of the key is missing (the C++ code then
returns the original trie), otherwise the clone of n with the edge
rebuilt: the terminal node is replaced by a value-less TrieNode with the
same children, and on the way back up a child that ended up value-less
and childless is erased from its (cloned) parent, exactly the bottom-up
pruning loop over the st stack. -/
def removeNode (n : TrieNode V) (c : Nat) : List Nat → Option (TrieNode V)
  | [] =>
      match findA n.children c with
      | none => none
      | some child =>
          let nc : TrieNode V := TrieNode.mk child.children none
          if nc.children.isEmpty && nc.value?.isNone then
            some (TrieNode.mk (eraseA n.children c) n.value?)
          else
            some (TrieNode.mk (setA n.children c nc) n.value?)
  | c2 :: rest2 =>
      match findA n.children c with
      | none => none
      | some child =>
          match removeNode child c2 rest2 with
          | none => none
          | some nc =>
              if nc.children.isEmpty && nc.value?.isNone then
                some (TrieNode.mk (eraseA n.children c) n.value?)
              else
                some (TrieNode.mk (setA n.children c nc) n.value?)

/-- Trie::Remove.  For the empty key the C++ code strips the root's value
(when a root exists) without any emptiness check on the result; for a
non-empty key it walks and prunes via removeNode, returns the original
trie when the key path is missing, and finally replaces a value-less,
childless new root by the empty trie. -/
def remove (t : Trie V) : List Nat → Trie V
  | [] =>
      match t.root with
      | none => Trie.mk none
      | some n => Trie.mk (some (TrieNode.mk n.children none))
  | c :: rest =>
      match t.root with
      | none => Trie.mk none
      | some root =>
          match removeNode root c rest with
          | none => Trie.mk (some root)
          | some nr =>
              if nr.children.isEmpty && nr.value?.isNone then Trie.mk none
              else Trie.mk (some nr)

end Trie

/-! ## Trie well-formedness

Invariants intrinsic to the C++ representation: std::map children have
pairwise distinct keys, and (spec section 3) no node is simultaneously
value-less and childless; the empty trie is the null root. -/

mutual

def TrieNode.wf {V : Type} : TrieNode V → Prop
  | .mk cs v? => ((cs.map Prod.fst).Nodup ∧ (v?.isSome ∨ cs ≠ [])) ∧ TrieNode.wfAll cs

def TrieNode.wfAll {V : Type} : List (Nat × TrieNode V) → Prop
  | [] => True
  | (_, n) :: rest => TrieNode.wf n ∧ TrieNode.wfAll rest

end

def Trie.wfRoot {V : Type} : Option (TrieNode V) → Prop
  | none => True
  | some n => n.wf

def Trie.wf {V : Type} (t : Trie V) : Prop :=
  Trie.wfRoot t.root

namespace Trie

variable {V : Type}

theorem findA_some_mem_pair {β : Type u} (l : List (Nat × β)) (key : Nat) (v : β)
    (h : Bustub.findA l key = some v) : (key, v) ∈ l := by
  induction l with
  | nil => simp [Bustub.findA] at h
  | cons hd tl ih =>
      obtain ⟨k, w⟩ := hd
      by_cases hk : k = key
      · subst hk
        rw [findA_cons, if_pos rfl] at h
        obtain rfl := Option.some.inj h
        exact List.mem_cons_self _ _
      · rw [findA_cons, if_neg hk] at h
        exact List.mem_cons_of_mem _ (ih h)

theorem wf_of_wfAll_mem {cs : List (Nat × TrieNode V)} {c : Nat} {n : TrieNode V}
    (hall : TrieNode.wfAll cs) (hmem : (c, n) ∈ cs) : n.wf := by
  induction cs with
  | nil => simp at hmem
  | cons hd tl ih =>
      obtain ⟨k, m⟩ := hd
      rw [TrieNode.wfAll] at hall
      rcases List.mem_cons.mp hmem with h1 | h1
      · rw [show n = m from (Prod.ext_iff.mp h1).2]
        exact hall.1
      · exact ih hall.2 h1

theorem wf_children_nodup {n : TrieNode V} (h : n.wf) :
    ((n.children.map Prod.fst).Nodup) := by
  cases n with
  | mk cs v? => rw [TrieNode.wf] at h; exact h.1.1

theorem wf_wfAll {n : TrieNode V} (h : n.wf) : TrieNode.wfAll n.children := by
  cases n with
  | mk cs v? => rw [TrieNode.wf] at h; exact h.2

theorem wf_child {n : TrieNode V} {c : Nat} {ch : TrieNode V} (h : n.wf)
    (hfind : findA n.children c = some ch) : ch.wf :=
  wf_of_wfAll_mem (wf_wfAll h) (findA_some_mem_pair _ _ _ hfind)

theorem wf_not_empty_valueless {n : TrieNode V} (h : n.wf) :
    (n.children.isEmpty && n.value?.isNone) = false := by
  cases n with
  | mk cs v? =>
      rw [TrieNode.wf] at h
      rcases h.1.2 with h1 | h1
      · cases v? with
        | none => simp at h1
        | some v => simp
      · cases cs with
        | nil => simp at h1
        | cons hd tl => simp

/-- Well-formedness of the looked-up child of a well-formed optional node. -/
theorem wfRoot_bind_child (old? : Option (TrieNode V)) (c : Nat)
    (h : wfRoot old?) : wfRoot (old?.bind fun n => findA n.children c) := by
  cases old? with
  | none => exact trivial
  | some n =>
      show wfRoot (findA n.children c)
      cases hfind : findA n.children c with
      | none => exact trivial
      | some ch => exact wf_child h hfind

theorem cloneOf_children_nodup (old? : Option (TrieNode V)) (h : wfRoot old?) :
    (((cloneOf old?).children.map Prod.fst).Nodup) := by
  cases old? with
  | none => simp
  | some n => exact wf_children_nodup h

/-! ### Claim C7: put/get/remove round trips -/

theorem getNode_putNode_self (key : List Nat) (old? : Option (TrieNode V)) (v : V) :
    getNode (putNode old? key v) key = some v := by
  induction key generalizing old? with
  | nil => rfl
  | cons c rest ih =>
      simp only [putNode, getNode, TrieNode.children_mk, findA_setA_self]
      exact ih _

theorem removeNode_putNode (rest : List Nat) (c : Nat) (old? : Option (TrieNode V)) (v : V)
    (hwf : wfRoot old?) :
    ∃ m, removeNode (putNode old? (c :: rest) v) c rest = some m ∧
      getNode m (c :: rest) = none := by
  induction rest generalizing c old? with
  | nil =>
      have hsetKeys := keys_setA_nodup (cloneOf old?).children c
        (putNode (old?.bind fun n => findA n.children c) [] v)
        (cloneOf_children_nodup old? hwf)
      simp only [putNode] at hsetKeys
      simp only [putNode, removeNode, TrieNode.children_mk, TrieNode.value_mk,
        findA_setA_self, Option.isNone_none, Bool.and_true]
      by_cases hch : (childrenOf (old?.bind fun n => findA n.children c)).isEmpty = true
      · rw [if_pos hch]
        refine ⟨_, rfl, ?_⟩
        simp only [getNode, TrieNode.children_mk]
        rw [findA_eraseA_nodup _ c hsetKeys]
      · rw [if_neg hch]
        refine ⟨_, rfl, ?_⟩
        simp only [getNode, TrieNode.children_mk, TrieNode.value_mk, findA_setA_self]
  | cons c2 rest2 ih =>
      have hsub : wfRoot (old?.bind fun n => findA n.children c) :=
        wfRoot_bind_child old? c hwf
      obtain ⟨m2, hm2, hget2⟩ := ih c2 (old?.bind fun n => findA n.children c) hsub
      have hsetKeys := keys_setA_nodup (cloneOf old?).children c
        (putNode (old?.bind fun n => findA n.children c) (c2 :: rest2) v)
        (cloneOf_children_nodup old? hwf)
      simp only [putNode] at hsetKeys hm2
      simp only [putNode, removeNode, TrieNode.children_mk, TrieNode.value_mk,
        findA_setA_self, hm2]
      by_cases hprune : (m2.children.isEmpty && m2.value?.isNone) = true
      · rw [if_pos hprune]
        refine ⟨_, rfl, ?_⟩
        simp only [getNode, TrieNode.children_mk]
        rw [findA_eraseA_nodup _ c hsetKeys]
      · rw [if_neg hprune]
        refine ⟨_, rfl, ?_⟩
        simp only [getNode, TrieNode.children_mk, findA_setA_self]
        exact hget2

/-- Claim C7.  On any well-formed trie: a put makes the key readable with
the stored value, a put followed by a remove of the same key makes it
unreadable, and the original trie is untouched by put (immediate in this
pure embedding of the copy-on-write structure, stated as the third
conjunct). -/
theorem trie_put_get_remove_roundtrip (t : Trie V) (key : List Nat) (v : V)
    (hwf : t.wf) :
    (t.put key v).get key = some v ∧
    ((t.put key v).remove key).get key = none ∧
    (∀ key2, t.get key2 = t.get key2) := by
  refine ⟨?_, ?_, fun _ => rfl⟩
  · simp only [put, get]
    exact getNode_putNode_self key t.root v
  · cases key with
    | nil =>
        simp [put, remove, get, getNode, putNode]
    | cons c rest =>
        obtain ⟨m, hm, hget⟩ := removeNode_putNode rest c t.root v hwf
        simp only [put, remove, hm]
        by_cases hprune : (m.children.isEmpty && m.value?.isNone) = true
        · rw [if_pos hprune]; rfl
        · rw [if_neg hprune]
          simpa [get] using hget

/-- Witness for C7 at a concrete input. -/
theorem trie_put_get_remove_roundtrip_witness :
    (Trie.mk (none : Option (TrieNode Nat))).wf ∧
    (((Trie.mk (none : Option (TrieNode Nat))).put [0, 1] 5).get [0, 1] = some 5 ∧
     ((((Trie.mk (none : Option (TrieNode Nat))).put [0, 1] 5).remove [0, 1]).get [0, 1]
        = none) ∧
     (∀ key2, (Trie.mk (none : Option (TrieNode Nat))).get key2
        = (Trie.mk (none : Option (TrieNode Nat))).get key2)) :=
  ⟨trivial, trie_put_get_remove_roundtrip (Trie.mk none) [0, 1] 5 trivial⟩

/-! ### Claim C8: removing an absent key returns the trie unchanged -/

theorem removeNode_absent (rest : List Nat) (c : Nat) (n : TrieNode V)
    (hwf : n.wf) (habs : getNode n (c :: rest) = none) :
    removeNode n c rest = none ∨ removeNode n c rest = some n := by
  induction rest generalizing c n with
  | nil =>
      cases hfind : findA n.children c with
      | none => left; simp [removeNode, hfind]
      | some child =>
          have hval : child.value? = none := by
            simpa [getNode, hfind] using habs
          have hchildwf : child.wf := wf_child hwf hfind
          have hne := wf_not_empty_valueless hchildwf
          rw [hval] at hne
          simp only [Option.isNone_none, Bool.and_true] at hne
          right
          have hchild_eq : TrieNode.mk child.children none = child := by
            rw [← hval]; exact TrieNode.eta child
          simp only [removeNode, hfind, TrieNode.children_mk, TrieNode.value_mk,
            Option.isNone_none, Bool.and_true]
          rw [if_neg (by rw [hne]; simp)]
          rw [hchild_eq, setA_self _ _ _ hfind, TrieNode.eta]
  | cons c2 rest2 ih =>
      cases hfind : findA n.children c with
      | none => left; simp [removeNode, hfind]
      | some child =>
          have habs2 : getNode child (c2 :: rest2) = none := by
            simpa [getNode, hfind] using habs
          have hchildwf : child.wf := wf_child hwf hfind
          rcases ih c2 child hchildwf habs2 with hrm | hrm
          · left; simp [removeNode, hfind, hrm]
          · right
            have hne := wf_not_empty_valueless hchildwf
            simp only [removeNode, hfind, hrm]
            rw [if_neg (by rw [hne]; simp)]
            rw [setA_self _ _ _ hfind, TrieNode.eta]

/-- Claim C8.  For a well-formed trie and a key that is not mapped (the
walk misses an edge, or the terminal node bears no value, or the empty
key with a value-less root), Trie::Remove returns the original trie. -/
theorem trie_remove_absent (t : Trie V) (key : List Nat)
    (hwf : t.wf) (habs : t.get key = none) : t.remove key = t := by
  obtain ⟨root?⟩ := t
  cases key with
  | nil =>
      cases root? with
      | none => rfl
      | some n =>
          have hval : n.value? = none := by simpa [get, getNode] using habs
          show Trie.mk (some (TrieNode.mk n.children none)) = Trie.mk (some n)
          rw [← hval, TrieNode.eta]
  | cons c rest =>
      cases root? with
      | none => rfl
      | some root =>
          have habs2 : getNode root (c :: rest) = none := by simpa [get] using habs
          have hrootwf : root.wf := hwf
          rcases removeNode_absent rest c root hrootwf habs2 with hrm | hrm
          · simp [remove, hrm]
          · simp only [remove, hrm]
            rw [if_neg (by rw [wf_not_empty_valueless hrootwf]; simp)]

/-- Witness for C8: removing the absent key 1 from the well-formed trie
mapping key 0 to 3 leaves the trie unchanged. -/
theorem trie_remove_absent_witness :
    (Trie.mk (some (TrieNode.mk [(0, TrieNode.mk [] (some 3))] none))).wf ∧
    (Trie.mk (some (TrieNode.mk [(0, TrieNode.mk ([] : List (Nat × TrieNode Nat)) (some 3))]
        none))).get [1] = none ∧
    (Trie.mk (some (TrieNode.mk [(0, TrieNode.mk ([] : List (Nat × TrieNode Nat)) (some 3))]
        none))).remove [1]
      = Trie.mk (some (TrieNode.mk [(0, TrieNode.mk [] (some 3))] none)) := by
  have hwf : (Trie.mk (some (TrieNode.mk [(0, TrieNode.mk ([] : List (Nat × TrieNode Nat))
      (some 3))] none))).wf := by
    show TrieNode.wf _
    rw [TrieNode.wf, TrieNode.wfAll, TrieNode.wf, TrieNode.wfAll]
    refine ⟨⟨by decide, Or.inr (by simp)⟩, ⟨⟨by decide, Or.inl (by simp)⟩, trivial⟩, trivial⟩
  exact ⟨hwf, rfl, trie_remove_absent _ [1] hwf rfl⟩

/-! ### Claim C9: the pruning invariant after remove -/

/-- Claim C9 fails on the code: removing the empty key from the trie that
maps only the empty key yields a trie whose root node is value-less and
childless but not null, because the empty-key branch of Trie::Remove
skips the final empty-root check that the non-empty-key branch performs.
This theorem evaluates the code at that input. -/
theorem trie_remove_empty_key_invariant_bug :
    (((Trie.mk (none : Option (TrieNode Nat))).put [] 0).remove []).root
      = some (TrieNode.mk [] none) := rfl

end Trie

/-! ## LRU-K replacer (src/buffer/lru_k_replacer.cpp)

node_store_ is a std::map from frame id to LRUKNode, embedded as an
association list kept in ascending key order (insertSortedA on fresh
insertion).  history_ is a std::list of timestamps with the oldest at the
front; k_ counts the recorded accesses, capped at K by the sliding-window
update in RecordAccess.  C++ exceptions become Except.error results.  The
fid_ field of LRUKNode is carried as the map key. -/

structure LRUKNode where
  k : Nat
  history : List Nat
  is_evictable : Bool
  deriving DecidableEq

/-- Oldest recorded timestamp: *history_.begin() (history is non-empty for
every stored node). -/
def LRUKNode.oldest (n : LRUKNode) : Nat := n.history.headD 0

structure LRUKReplacer where
  node_store : List (Nat × LRUKNode)
  curr_size : Nat
  current_timestamp : Nat
  replacer_size : Nat
  k : Nat
  deriving DecidableEq

/-- Loop state of LRUKReplacer::Evict: the found flag, the running diff
(0 encodes an infinite backward k-distance candidate), the candidate's
oldest timestamp, and the candidate frame id (*frame_id). -/
structure EvictAcc where
  found : Bool
  diff : Nat
  earliest : Nat
  fid : Nat
  deriving DecidableEq

/-- One iteration of the Evict scan over a node-store entry, exactly the
branch structure of the C++ loop.  In the first-found branch the C++ code
assigns diff only when the node has K accesses; diff is still 0 from its
initialization otherwise, which the else-0 arm reproduces. -/
def evictStep (K cur : Nat) (acc : EvictAcc) (e : Nat × LRUKNode) : EvictAcc :=
  if e.2.is_evictable then
    if acc.found then
      if acc.diff = 0 then
        if e.2.k < K ∧ acc.earliest > e.2.oldest then
          { acc with fid := e.1, earliest := e.2.oldest, diff := 0 }
        else acc
      else
        if e.2.k < K then
          { acc with fid := e.1, earliest := e.2.oldest, diff := 0 }
        else
          if cur - e.2.oldest > acc.diff then
            { acc with fid := e.1, earliest := e.2.oldest, diff := cur - e.2.oldest }
          else acc
    else
      { found := true, diff := if e.2.k = K then cur - e.2.oldest else 0,
        earliest := e.2.oldest, fid := e.1 }
  else acc

namespace LRUKReplacer

/-- LRUKReplacer::Evict: scan every node, pick the victim per the loop,
then erase its node and decrement curr_size_ when one was found. -/
def evict (r : LRUKReplacer) : Option Nat × LRUKReplacer :=
  if r.curr_size = 0 then (none, r)
  else
    let acc := r.node_store.foldl (evictStep r.k r.current_timestamp) ⟨false, 0, 0, 0⟩
    if acc.found then
      (some acc.fid,
        { r with node_store := eraseA r.node_store acc.fid,
                 curr_size := r.curr_size - 1 })
    else (none, r)

/-- LRUKReplacer::RecordAccess.  Rejects frame_id strictly greater than
replacer_size_ (note: not greater-or-equal).  A fresh node gets k_ = 1,
is_evictable_ = false and a one-entry history; an existing node slides
its window when full, appends the current timestamp and bumps k_.  The
timestamp advances on every successful call. -/
def recordAccess (r : LRUKReplacer) (fid : Nat) : Except String LRUKReplacer :=
  if r.replacer_size < fid then
    .error "RecordAccess: frame_id is bigger than replacer_size_"
  else
    match findA r.node_store fid with
    | none =>
        .ok { r with
              node_store := insertSortedA r.node_store fid
                { k := 1, history := [r.current_timestamp], is_evictable := false },
              current_timestamp := r.current_timestamp + 1 }
    | some n =>
        let n1 := if n.k = r.k then { n with history := n.history.tail, k := n.k - 1 } else n
        let n2 := { n1 with history := n1.history ++ [r.current_timestamp], k := n1.k + 1 }
        .ok { r with node_store := setA r.node_store fid n2,
                     current_timestamp := r.current_timestamp + 1 }

/-- LRUKReplacer::SetEvictable: throws on an unknown frame, adjusts
curr_size_ on an evictability transition. -/
def setEvictable (r : LRUKReplacer) (fid : Nat) (ev : Bool) : Except String LRUKReplacer :=
  match findA r.node_store fid with
  | none => .error "SetEvictable: frame id is invalid"
  | some n =>
      let newSize :=
        if n.is_evictable && !ev then r.curr_size - 1
        else if !n.is_evictable && ev then r.curr_size + 1
        else r.curr_size
      .ok { r with curr_size := newSize,
                   node_store := setA r.node_store fid { n with is_evictable := ev } }

/-- LRUKReplacer::Remove: no-op on an absent frame, throws on a stored
non-evictable frame, otherwise erases the node and decrements curr_size_. -/
def remove (r : LRUKReplacer) (fid : Nat) : Except String LRUKReplacer :=
  match findA r.node_store fid with
  | none => .ok r
  | some n =>
      if !n.is_evictable then .error "Remove: is called on a non-evictable frame"
      else .ok { r with node_store := eraseA r.node_store fid,
                        curr_size := r.curr_size - 1 }

/-- LRUKReplacer::Size. -/
def size (r : LRUKReplacer) : Nat := r.curr_size

/-- Well-formedness of a stored node: non-empty history, k_ equals the
history length, k_ at most K, and every recorded timestamp is strictly
before current_timestamp_ (RecordAccess appends the timestamp and then
increments it). -/
def NodeWF (K cur : Nat) (n : LRUKNode) : Prop :=
  n.history ≠ [] ∧ n.k = n.history.length ∧ n.k ≤ K ∧ ∀ t ∈ n.history, t < cur

/-- Replacer state well-formedness: std::map keys are distinct, every
stored node is well formed, and curr_size_ counts the evictable nodes. -/
def WF (r : LRUKReplacer) : Prop :=
  ((r.node_store.map Prod.fst).Nodup) ∧
  (∀ e ∈ r.node_store, NodeWF r.k r.current_timestamp e.2) ∧
  r.curr_size = (r.node_store.filter (fun e => e.2.is_evictable)).length

end LRUKReplacer

/-- Backward k-distance preference from claim C3, as a binary relation:
a is at least as good an eviction victim as b.  A node with fewer than K
recorded accesses (infinite distance) beats any node with at least K;
among fewer-than-K nodes a smaller oldest-access timestamp is preferred;
among at-least-K nodes a larger current_timestamp minus
oldest-of-last-K is preferred. -/
def kdistPrefGE (K cur : Nat) (a b : LRUKNode) : Prop :=
  if a.k < K then (b.k < K → a.oldest ≤ b.oldest)
  else (¬ b.k < K ∧ cur - b.oldest ≤ cur - a.oldest)

theorem kdistPrefGE_refl (K cur : Nat) (a : LRUKNode) : kdistPrefGE K cur a a := by
  unfold kdistPrefGE
  by_cases h : a.k < K
  · simp [h]
  · simp [h]

theorem kdistPrefGE_trans (K cur : Nat) (a b c : LRUKNode)
    (hab : kdistPrefGE K cur a b) (hbc : kdistPrefGE K cur b c) :
    kdistPrefGE K cur a c := by
  unfold kdistPrefGE at *
  by_cases ha : a.k < K
  · rw [if_pos ha] at hab ⊢
    intro hc
    by_cases hb : b.k < K
    · rw [if_pos hb] at hbc
      exact le_trans (hab hb) (hbc hc)
    · rw [if_neg hb] at hbc
      exact absurd hc hbc.1
  · rw [if_neg ha] at hab ⊢
    have hb : ¬ b.k < K := hab.1
    rw [if_neg hb] at hbc
    exact ⟨hbc.1, le_trans hbc.2 hab.2⟩

theorem nodeWF_oldest_lt {K cur : Nat} {n : LRUKNode}
    (h : LRUKReplacer.NodeWF K cur n) : n.oldest < cur := by
  obtain ⟨hne, -, -, hts⟩ := h
  cases hh : n.history with
  | nil => exact absurd hh hne
  | cons t ts =>
      have hold : n.oldest = t := by rw [LRUKNode.oldest, hh]; rfl
      rw [hold]
      exact hts t (by rw [hh]; exact List.mem_cons_self _ _)

/-! ### Behavior of one Evict scan iteration, by branch -/

theorem evictStep_skip (K cur : Nat) (acc : EvictAcc) (e : Nat × LRUKNode)
    (hev : e.2.is_evictable = false) : evictStep K cur acc e = acc := by
  unfold evictStep
  rw [hev]
  simp

theorem evictStep_first (K cur : Nat) (acc : EvictAcc) (e : Nat × LRUKNode)
    (hev : e.2.is_evictable = true) (hf : acc.found = false) :
    evictStep K cur acc e
      = ⟨true, if e.2.k = K then cur - e.2.oldest else 0, e.2.oldest, e.1⟩ := by
  unfold evictStep
  rw [hev, hf]
  simp

theorem evictStep_inf_switch (K cur : Nat) (acc : EvictAcc) (e : Nat × LRUKNode)
    (hev : e.2.is_evictable = true) (hf : acc.found = true) (hd0 : acc.diff = 0)
    (hc : e.2.k < K ∧ acc.earliest > e.2.oldest) :
    evictStep K cur acc e = { acc with fid := e.1, earliest := e.2.oldest, diff := 0 } := by
  unfold evictStep
  rw [hev, hf]
  simp [hd0, hc.1, hc.2]

theorem evictStep_inf_keep (K cur : Nat) (acc : EvictAcc) (e : Nat × LRUKNode)
    (hev : e.2.is_evictable = true) (hf : acc.found = true) (hd0 : acc.diff = 0)
    (hc : ¬ (e.2.k < K ∧ acc.earliest > e.2.oldest)) :
    evictStep K cur acc e = acc := by
  unfold evictStep
  rw [hev, hf]
  simp [hd0, hc]

theorem evictStep_fin_inf (K cur : Nat) (acc : EvictAcc) (e : Nat × LRUKNode)
    (hev : e.2.is_evictable = true) (hf : acc.found = true) (hd : ¬ acc.diff = 0)
    (hk : e.2.k < K) :
    evictStep K cur acc e = { acc with fid := e.1, earliest := e.2.oldest, diff := 0 } := by
  unfold evictStep
  rw [hev, hf]
  simp [hd, hk]

theorem evictStep_fin_better (K cur : Nat) (acc : EvictAcc) (e : Nat × LRUKNode)
    (hev : e.2.is_evictable = true) (hf : acc.found = true) (hd : ¬ acc.diff = 0)
    (hk : ¬ e.2.k < K) (hb : cur - e.2.oldest > acc.diff) :
    evictStep K cur acc e
      = { acc with fid := e.1, earliest := e.2.oldest, diff := cur - e.2.oldest } := by
  unfold evictStep
  rw [hev, hf]
  simp [hd, hk, hb]

theorem evictStep_fin_keep (K cur : Nat) (acc : EvictAcc) (e : Nat × LRUKNode)
    (hev : e.2.is_evictable = true) (hf : acc.found = true) (hd : ¬ acc.diff = 0)
    (hk : ¬ e.2.k < K) (hb : ¬ cur - e.2.oldest > acc.diff) :
    evictStep K cur acc e = acc := by
  unfold evictStep
  rw [hev, hf]
  simp [hd, hk, hb]

/-! ### Loop invariant of the Evict scan -/

/-- Invariant of the Evict loop over the processed prefix seen: either
nothing evictable was seen (found still false, diff still 0), or the
accumulator holds a seen evictable entry that is a kdistPrefGE-maximum
among the seen evictable entries, with earliest and diff tracking that
entry exactly as the C++ loop maintains them. -/
def AccInv (K cur : Nat) (seen : List (Nat × LRUKNode)) (acc : EvictAcc) : Prop :=
  (acc.found = false ∧ acc.diff = 0 ∧ ∀ e ∈ seen, e.2.is_evictable = false) ∨
  (acc.found = true ∧ ∃ n : LRUKNode, (acc.fid, n) ∈ seen ∧ n.is_evictable = true ∧
    acc.earliest = n.oldest ∧
    acc.diff = (if n.k = K then cur - n.oldest else 0) ∧
    ∀ e ∈ seen, e.2.is_evictable = true → kdistPrefGE K cur n e.2)

theorem accInv_step (K cur : Nat) (seen : List (Nat × LRUKNode)) (acc : EvictAcc)
    (e : Nat × LRUKNode)
    (hwfe : LRUKReplacer.NodeWF K cur e.2)
    (hwfseen : ∀ x ∈ seen, LRUKReplacer.NodeWF K cur x.2)
    (hinv : AccInv K cur seen acc) :
    AccInv K cur (seen ++ [e]) (evictStep K cur acc e) := by
  have hmem_e : (e.1, e.2) ∈ seen ++ [e] := by
    rw [show (e.1, e.2) = e from rfl]
    exact List.mem_append_right _ (List.mem_singleton_self e)
  cases hev : e.2.is_evictable with
  | false =>
      rw [evictStep_skip K cur acc e hev]
      rcases hinv with ⟨h1, h2, h3⟩ | ⟨h1, n, hmem, hevn, hearliest, hdiff, hopt⟩
      · left
        refine ⟨h1, h2, fun x hx => ?_⟩
        rcases List.mem_append.mp hx with hx | hx
        · exact h3 x hx
        · rw [List.mem_singleton.mp hx]; exact hev
      · right
        refine ⟨h1, n, List.mem_append_left _ hmem, hevn, hearliest, hdiff,
          fun x hx hxev => ?_⟩
        rcases List.mem_append.mp hx with hx | hx
        · exact hopt x hx hxev
        · rw [List.mem_singleton.mp hx] at hxev
          rw [hev] at hxev
          exact absurd hxev (by simp)
  | true =>
      rcases hinv with ⟨h1, h2, h3⟩ | ⟨h1, n, hmem, hevn, hearliest, hdiff, hopt⟩
      · -- first evictable entry found
        rw [evictStep_first K cur acc e hev h1]
        right
        refine ⟨rfl, e.2, hmem_e, hev, rfl, rfl, fun x hx hxev => ?_⟩
        rcases List.mem_append.mp hx with hx | hx
        · exact absurd hxev (by rw [h3 x hx]; simp)
        · rw [List.mem_singleton.mp hx]
          exact kdistPrefGE_refl K cur e.2
      · have hwfn : LRUKReplacer.NodeWF K cur n := hwfseen (acc.fid, n) hmem
        by_cases hd0 : acc.diff = 0
        · -- current best has an infinite k-distance
          have hnkK : n.k < K := by
            rcases lt_or_eq_of_le hwfn.2.2.1 with h | h
            · exact h
            · exfalso
              rw [hdiff, if_pos h] at hd0
              have := nodeWF_oldest_lt hwfn
              omega
          by_cases hc : e.2.k < K ∧ acc.earliest > e.2.oldest
          · rw [evictStep_inf_switch K cur acc e hev h1 hd0 hc]
            right
            have hpref_en : kdistPrefGE K cur e.2 n := by
              unfold kdistPrefGE
              rw [if_pos hc.1]
              intro _
              rw [hearliest] at hc
              omega
            refine ⟨h1, e.2, hmem_e, hev, rfl, ?_, fun x hx hxev => ?_⟩
            · rw [if_neg (Nat.ne_of_lt hc.1)]
            · rcases List.mem_append.mp hx with hx | hx
              · exact kdistPrefGE_trans K cur e.2 n x.2 hpref_en (hopt x hx hxev)
              · rw [List.mem_singleton.mp hx]
                exact kdistPrefGE_refl K cur e.2
          · rw [evictStep_inf_keep K cur acc e hev h1 hd0 hc]
            right
            refine ⟨h1, n, List.mem_append_left _ hmem, hevn, hearliest, hdiff,
              fun x hx hxev => ?_⟩
            rcases List.mem_append.mp hx with hx | hx
            · exact hopt x hx hxev
            · rw [List.mem_singleton.mp hx]
              unfold kdistPrefGE
              rw [if_pos hnkK]
              intro hek
              rw [hearliest] at hc
              push_neg at hc
              have := hc hek
              omega
        · -- current best has a finite k-distance (full history)
          have hnkK : n.k = K := by
            rcases lt_or_eq_of_le hwfn.2.2.1 with h | h
            · exfalso
              rw [hdiff, if_neg (Nat.ne_of_lt h)] at hd0
              exact hd0 rfl
            · exact h
          have hdiffval : acc.diff = cur - n.oldest := by rw [hdiff, if_pos hnkK]
          have hnk_not_lt : ¬ n.k < K := by rw [hnkK]; exact lt_irrefl K
          by_cases hek : e.2.k < K
          · rw [evictStep_fin_inf K cur acc e hev h1 hd0 hek]
            right
            have hpref_en : kdistPrefGE K cur e.2 n := by
              unfold kdistPrefGE
              rw [if_pos hek]
              intro hcontra
              exact absurd hcontra hnk_not_lt
            refine ⟨h1, e.2, hmem_e, hev, rfl, ?_, fun x hx hxev => ?_⟩
            · rw [if_neg (Nat.ne_of_lt hek)]
            · rcases List.mem_append.mp hx with hx | hx
              · exact kdistPrefGE_trans K cur e.2 n x.2 hpref_en (hopt x hx hxev)
              · rw [List.mem_singleton.mp hx]
                exact kdistPrefGE_refl K cur e.2
          · by_cases hb : cur - e.2.oldest > acc.diff
            · rw [evictStep_fin_better K cur acc e hev h1 hd0 hek hb]
              right
              have hekK : e.2.k = K := Nat.le_antisymm hwfe.2.2.1 (Nat.le_of_not_lt hek)
              have hpref_en : kdistPrefGE K cur e.2 n := by
                unfold kdistPrefGE
                rw [if_neg hek]
                exact ⟨hnk_not_lt, by omega⟩
              refine ⟨h1, e.2, hmem_e, hev, rfl, ?_, fun x hx hxev => ?_⟩
              · rw [if_pos hekK]
              · rcases List.mem_append.mp hx with hx | hx
                · exact kdistPrefGE_trans K cur e.2 n x.2 hpref_en (hopt x hx hxev)
                · rw [List.mem_singleton.mp hx]
                  exact kdistPrefGE_refl K cur e.2
            · rw [evictStep_fin_keep K cur acc e hev h1 hd0 hek hb]
              right
              refine ⟨h1, n, List.mem_append_left _ hmem, hevn, hearliest, hdiff,
                fun x hx hxev => ?_⟩
              rcases List.mem_append.mp hx with hx | hx
              · exact hopt x hx hxev
              · rw [List.mem_singleton.mp hx]
                unfold kdistPrefGE
                rw [if_neg hnk_not_lt]
                exact ⟨hek, by omega⟩

theorem accInv_foldl (K cur : Nat) (l : List (Nat × LRUKNode)) :
    ∀ (seen : List (Nat × LRUKNode)) (acc : EvictAcc),
      (∀ x ∈ seen ++ l, LRUKReplacer.NodeWF K cur x.2) →
      AccInv K cur seen acc →
      AccInv K cur (seen ++ l) (l.foldl (evictStep K cur) acc) := by
  induction l with
  | nil => intro seen acc _ hinv; simpa using hinv
  | cons e l' ih =>
      intro seen acc hwf hinv
      have hwfe : LRUKReplacer.NodeWF K cur e.2 :=
        hwf e (List.mem_append_right _ (List.mem_cons_self _ _))
      have hwfseen : ∀ x ∈ seen, LRUKReplacer.NodeWF K cur x.2 :=
        fun x hx => hwf x (List.mem_append_left _ hx)
      have hstep := accInv_step K cur seen acc e hwfe hwfseen hinv
      have hwf2 : ∀ x ∈ (seen ++ [e]) ++ l', LRUKReplacer.NodeWF K cur x.2 := by
        intro x hx
        apply hwf
        rw [List.append_assoc] at hx
        simpa using hx
      have := ih (seen ++ [e]) (evictStep K cur acc e) hwf2 hstep
      rw [List.append_assoc] at this
      simpa using this

theorem findA_eq_of_mem_nodup {β : Type u} (l : List (Nat × β)) (key : Nat) (v : β)
    (hnd : ((l.map Prod.fst).Nodup)) (hmem : (key, v) ∈ l) : findA l key = some v := by
  induction l with
  | nil => simp at hmem
  | cons hd tl ih =>
      obtain ⟨k0, v0⟩ := hd
      rw [List.map_cons, List.nodup_cons] at hnd
      rcases List.mem_cons.mp hmem with h1 | h1
      · obtain ⟨hk, hv⟩ := Prod.ext_iff.mp h1
        simp only at hk hv
        rw [findA_cons, if_pos hk.symm, hv]
      · have hne : k0 ≠ key := by
          intro hcontra
          subst hcontra
          exact hnd.1 (List.mem_map.mpr ⟨(k0, v), h1, rfl⟩)
        rw [findA_cons, if_neg hne]
        exact ih hnd.2 h1

/-- Claim C3.  For a well-formed replacer state: when no frame is
evictable Evict returns none and leaves the state unchanged; when some
frame is evictable, Evict returns a stored evictable frame that is a
maximum of the backward-k-distance preference order over all stored
evictable frames (fewer-than-K accesses beat at-least-K; among
fewer-than-K the smaller oldest timestamp wins; among at-least-K the
larger current_timestamp minus oldest-of-last-K wins), and the resulting
state has exactly that node erased and curr_size decremented. -/
theorem lruk_evict_max_backward_kdistance (r : LRUKReplacer) (hwf : r.WF) :
    (r.curr_size = 0 → r.evict = (none, r)) ∧
    (0 < r.curr_size →
      ∃ v nv,
        r.evict = (some v,
          { r with node_store := eraseA r.node_store v,
                   curr_size := r.curr_size - 1 }) ∧
        findA r.node_store v = some nv ∧
        nv.is_evictable = true ∧
        ∀ e ∈ r.node_store, e.2.is_evictable = true →
          kdistPrefGE r.k r.current_timestamp nv e.2) := by
  constructor
  · intro h0
    unfold LRUKReplacer.evict
    rw [if_pos h0]
  · intro hpos
    have hne : ¬ r.curr_size = 0 := Nat.pos_iff_ne_zero.mp hpos
    have hinv : AccInv r.k r.current_timestamp r.node_store
        (r.node_store.foldl (evictStep r.k r.current_timestamp) ⟨false, 0, 0, 0⟩) := by
      have := accInv_foldl r.k r.current_timestamp r.node_store [] ⟨false, 0, 0, 0⟩
        (by intro x hx; exact hwf.2.1 x (by simpa using hx))
        (Or.inl ⟨rfl, rfl, by simp⟩)
      simpa using this
    rcases hinv with ⟨-, -, h3⟩ | ⟨h1, n, hmem, hevn, -, -, hopt⟩
    · exfalso
      have hfilter : r.node_store.filter (fun e => e.2.is_evictable) = [] := by
        rw [List.filter_eq_nil_iff]
        intro a ha
        rw [h3 a ha]
        simp
      rw [hwf.2.2, hfilter] at hne
      exact hne rfl
    · refine ⟨(r.node_store.foldl (evictStep r.k r.current_timestamp) ⟨false, 0, 0, 0⟩).fid,
        n, ?_, ?_, hevn, fun e he hev => hopt e he hev⟩
      · unfold LRUKReplacer.evict
        rw [if_neg hne]
        simp [h1]
      · exact findA_eq_of_mem_nodup r.node_store _ n hwf.1 hmem

/-! ## Buffer pool manager (src/buffer/buffer_pool_manager.cpp)

pages_ is the frame array, indexed by frame id; page_table_ is a
std::unordered_map from page id to frame id; free_list_ a list of frame
ids.  The page's byte buffer is abstracted as a single Nat content value;
0 stands for the zero-filled buffer, so ResetMemory sets it to 0.  The
disk scheduler plus DiskManager pair is modelled as a map from page id
to stored content: a scheduled write followed by an await stores the
frame's current content; a scheduled read followed by an await loads the
stored content (0 for a never-written page).  page_id_t is Int with
INVALID_PAGE_ID = -1; pin_count_ is a C++ int, so Int. -/

structure Page where
  page_id : Int
  pin_count : Int
  is_dirty : Bool
  data : Nat
  deriving DecidableEq

/-- Default-constructed Page, as in new Page[pool_size]: invalid id, no
pins, clean, zeroed buffer. -/
def defaultPage : Page :=
  { page_id := -1, pin_count := 0, is_dirty := false, data := 0 }

structure BufferPoolManager where
  pool_size : Nat
  pages : List Page
  page_table : List (Int × Nat)
  free_list : List Nat
  replacer : LRUKReplacer
  next_page_id : Int
  disk : List (Int × Nat)
  deriving DecidableEq

namespace BufferPoolManager

/-- Read of pages_[fid] (frame ids handed out by the pool are always in
range, so the default is never observed by the theorems below). -/
def getPage (bpm : BufferPoolManager) (fid : Nat) : Page :=
  bpm.pages.getD fid defaultPage

/-- Shared tail of the BufferPoolManager::FetchPage miss path once a
frame has been acquired: write the frame's old dirty page back and reset
its memory, read the requested page from disk into the frame, insert the
page-table entry, set pin_count = 1, clean, new page id, then record the
access and pin the frame in the replacer. -/
def fetchMiss (bpm : BufferPoolManager) (pid : Int) (fid : Nat) :
    Except String (Option Nat × BufferPoolManager) :=
  let p := bpm.getPage fid
  let bpm1 :=
    if p.page_id ≠ -1 ∧ p.is_dirty = true then
      { bpm with disk := setA bpm.disk p.page_id p.data,
                 pages := bpm.pages.set fid { p with data := 0 } }
    else bpm
  let d := (findA bpm1.disk pid).getD 0
  let bpm2 :=
    { bpm1 with
      page_table := setA bpm1.page_table pid fid,
      pages := bpm1.pages.set fid
        { page_id := pid, pin_count := 1, is_dirty := false, data := d } }
  match bpm2.replacer.recordAccess fid with
  | .error e => .error e
  | .ok r1 =>
      match r1.setEvictable fid false with
      | .error e => .error e
      | .ok r2 => .ok (some fid, { bpm2 with replacer := r2 })

/-- BufferPoolManager::FetchPage.  Hit path: record the access, make the
frame non-evictable, return it (the source touches no page metadata
here).  Miss path: take a frame from the free list, else evict one
(erasing the victim's page-table entry), else return null; then run the
shared miss tail. -/
def fetchPage (bpm : BufferPoolManager) (pid : Int) :
    Except String (Option Nat × BufferPoolManager) :=
  match findA bpm.page_table pid with
  | some fid =>
      (match bpm.replacer.recordAccess fid with
       | .error e => .error e
       | .ok r1 =>
           match r1.setEvictable fid false with
           | .error e => .error e
           | .ok r2 => .ok (some fid, { bpm with replacer := r2 }))
  | none =>
      match bpm.free_list with
      | fid :: rest => fetchMiss { bpm with free_list := rest } pid fid
      | [] =>
          if bpm.replacer.size > 0 then
            match bpm.replacer.evict with
            | (some fid, rep) =>
                fetchMiss
                  { bpm with replacer := rep,
                             page_table := eraseA bpm.page_table (bpm.getPage fid).page_id }
                  pid fid
            | (none, rep) => .ok (none, { bpm with replacer := rep })
          else .ok (none, bpm)

/-- BufferPoolManager::UnpinPage: false on an absent page or a
non-positive pin count; otherwise OR the dirty flag, decrement the pin
count, and make the frame evictable when it reaches zero. -/
def unpinPage (bpm : BufferPoolManager) (pid : Int) (is_dirty : Bool) :
    Except String (Bool × BufferPoolManager) :=
  match findA bpm.page_table pid with
  | none => .ok (false, bpm)
  | some fid =>
      let p := bpm.getPage fid
      if p.pin_count ≤ 0 then .ok (false, bpm)
      else
        let p1 := { p with is_dirty := p.is_dirty || is_dirty,
                           pin_count := p.pin_count - 1 }
        let bpm1 := { bpm with pages := bpm.pages.set fid p1 }
        if p1.pin_count = 0 then
          match bpm1.replacer.setEvictable fid true with
          | .error e => .error e
          | .ok r => .ok (true, { bpm1 with replacer := r })
        else .ok (true, bpm1)

/-- BufferPoolManager::FlushPage: false on an absent page; otherwise
schedule and await a write of the frame's bytes, then reset the frame's
memory and clear its dirty flag. -/
def flushPage (bpm : BufferPoolManager) (pid : Int) : Bool × BufferPoolManager :=
  match findA bpm.page_table pid with
  | none => (false, bpm)
  | some fid =>
      let p := bpm.getPage fid
      (true, { bpm with disk := setA bpm.disk pid p.data,
                        pages := bpm.pages.set fid { p with data := 0, is_dirty := false } })

/-- BufferPoolManager::FlushAllPages.  The first loop schedules one write
per page-table entry from pages_[frame_id]; the writes capture those
bytes.  The second loop then resets memory and clears the dirty flag of
pages_[it->first] - indexing the frame array by the PAGE id, exactly as
the source does.  For a page id outside the frame array the C++ access
is out of bounds (undefined behavior); the embedded List.set is then a
no-op, and the theorems below only evaluate in-range inputs. -/
def flushAllPages (bpm : BufferPoolManager) : BufferPoolManager :=
  let d := bpm.page_table.foldl
    (fun d e => setA d e.1 (bpm.getPage e.2).data) bpm.disk
  let ps := bpm.page_table.foldl
    (fun ps (e : Int × Nat) =>
      ps.set e.1.toNat { ps.getD e.1.toNat defaultPage with data := 0, is_dirty := false })
    bpm.pages
  { bpm with disk := d, pages := ps }

/-- BufferPoolManager::DeletePage: true on an absent page, false on a
pinned one; otherwise schedule-and-await a write-back if dirty, erase
the page-table entry, remove the frame from the replacer, reset the
frame's metadata and memory, and append the frame to the free list
(DeallocatePage is a no-op).  The source performs these mutations in
that order on disjoint state components; the embedding collects them in
one record update, with the conditional write-back as the disk field. -/
def deletePage (bpm : BufferPoolManager) (pid : Int) :
    Except String (Bool × BufferPoolManager) :=
  match findA bpm.page_table pid with
  | none => .ok (true, bpm)
  | some fid =>
      let p := bpm.getPage fid
      if p.pin_count > 0 then .ok (false, bpm)
      else
        let newDisk := if p.is_dirty = true then setA bpm.disk pid p.data else bpm.disk
        match bpm.replacer.remove fid with
        | .error e => .error e
        | .ok rep =>
            .ok (true,
              { bpm with
                disk := newDisk,
                page_table := eraseA bpm.page_table pid,
                replacer := rep,
                pages := bpm.pages.set fid
                  { page_id := -1, pin_count := 0, is_dirty := false, data := 0 },
                free_list := bpm.free_list ++ [fid] })

end BufferPoolManager

/-! ## Page guards (src/storage/page/page_guard.cpp)

A BasicPageGuard holds bpm_ (a pool pointer, modelled as a non-null
flag in this single-pool world), page_ (a Page pointer, modelled as an
optional frame index into the pool), and is_dirty_.  Read/write guards
wrap a BasicPageGuard.  Page latches are per-page reader-writer locks
with no effect in this sequential model; what matters here is that
acquiring one dereferences the page pointer. -/

structure BasicPageGuard where
  bpm? : Bool
  page? : Option Nat
  is_dirty : Bool
  deriving DecidableEq

structure ReadPageGuard where
  guard : BasicPageGuard
  deriving DecidableEq

structure WritePageGuard where
  guard : BasicPageGuard
  deriving DecidableEq

namespace BasicPageGuard

/-- BasicPageGuard::Reset: null both pointers, clear the dirty flag. -/
def reset : BasicPageGuard := { bpm? := false, page? := none, is_dirty := false }

/-- BasicPageGuard::Drop (also the destructor): unpin through the pool
only when both bpm_ and page_ are non-null, then Reset.  Returns the
updated pool state alongside the reset guard. -/
def drop (g : BasicPageGuard) (st : BufferPoolManager) :
    Except String (BasicPageGuard × BufferPoolManager) :=
  match g.bpm?, g.page? with
  | true, some fid =>
      (match st.unpinPage (st.getPage fid).page_id g.is_dirty with
       | .error e => .error e
       | .ok r => .ok (reset, r.2))
  | _, _ => .ok (reset, st)

/-- BasicPageGuard::UpgradeRead: saves bpm_ and page_, resets the source,
then calls new_page->RLatch() with no null check - a null page_ is a
null-pointer dereference (undefined behavior), modelled as none.  The
ReadPageGuard constructor stores the saved pair with a clean dirty flag. -/
def upgradeRead (g : BasicPageGuard) : Option (BasicPageGuard × ReadPageGuard) :=
  match g.page? with
  | none => none
  | some fid =>
      some (reset, ⟨{ bpm? := g.bpm?, page? := some fid, is_dirty := false }⟩)

/-- BasicPageGuard::UpgradeWrite: identical shape with WLatch. -/
def upgradeWrite (g : BasicPageGuard) : Option (BasicPageGuard × WritePageGuard) :=
  match g.page? with
  | none => none
  | some fid =>
      some (reset, ⟨{ bpm? := g.bpm?, page? := some fid, is_dirty := false }⟩)

end BasicPageGuard

/-! ## Example buffer pool states used by concrete theorems -/

/-- A pool caching page 5 in frame 0 with pin count 3. -/
def fetchHitState : BufferPoolManager :=
  { pool_size := 1,
    pages := [{ page_id := 5, pin_count := 3, is_dirty := false, data := 9 }],
    page_table := [(5, 0)],
    free_list := [],
    replacer := { node_store := [(0, { k := 1, history := [0], is_evictable := false })],
                  curr_size := 0, current_timestamp := 1, replacer_size := 1, k := 2 },
    next_page_id := 6,
    disk := [] }

/-- A pool caching page 5 in frame 0, dirty, with buffer content 7. -/
def flushState : BufferPoolManager :=
  { pool_size := 1,
    pages := [{ page_id := 5, pin_count := 1, is_dirty := true, data := 7 }],
    page_table := [(5, 0)],
    free_list := [],
    replacer := { node_store := [], curr_size := 0, current_timestamp := 0,
                  replacer_size := 1, k := 2 },
    next_page_id := 6,
    disk := [] }

/-- A pool of two frames caching page 1 in frame 0 (dirty, content 7);
frame 1 is free with stale buffer content 4. -/
def flushAllState : BufferPoolManager :=
  { pool_size := 2,
    pages := [{ page_id := 1, pin_count := 0, is_dirty := true, data := 7 },
              { page_id := -1, pin_count := 0, is_dirty := false, data := 4 }],
    page_table := [(1, 0)],
    free_list := [1],
    replacer := { node_store := [], curr_size := 0, current_timestamp := 0,
                  replacer_size := 2, k := 2 },
    next_page_id := 2,
    disk := [] }

/-- A pool caching page 5 in frame 0, unpinned, dirty, evictable. -/
def deleteState : BufferPoolManager :=
  { pool_size := 1,
    pages := [{ page_id := 5, pin_count := 0, is_dirty := true, data := 7 }],
    page_table := [(5, 0)],
    free_list := [],
    replacer := { node_store := [(0, { k := 1, history := [0], is_evictable := true })],
                  curr_size := 1, current_timestamp := 1, replacer_size := 1, k := 2 },
    next_page_id := 6,
    disk := [] }

/-! ## Supporting lemmas on the replacer operations -/

theorem findA_insertSortedA_self {α : Type u} (l : List (Nat × α)) (key : Nat) (val : α) :
    findA (insertSortedA l key val) key = some val := by
  induction l with
  | nil => simp [insertSortedA, findA]
  | cons hd tl ih =>
      obtain ⟨k, v⟩ := hd
      by_cases h1 : key < k
      · simp [insertSortedA, h1, findA]
      · by_cases h2 : key = k
        · simp [insertSortedA, h1, h2, findA]
        · have hk : k ≠ key := fun hc => h2 hc.symm
          simp [insertSortedA, h1, h2, findA_cons, hk, ih]

/-- RecordAccess succeeds on any frame id at most replacer_size_, and the
frame's node is stored afterwards. -/
theorem recordAccess_ok (r : LRUKReplacer) (fid : Nat) (h : fid ≤ r.replacer_size) :
    ∃ r1, r.recordAccess fid = Except.ok r1 ∧ (∃ n, findA r1.node_store fid = some n) := by
  unfold LRUKReplacer.recordAccess
  rw [if_neg (not_lt.mpr h)]
  cases hfind : findA r.node_store fid with
  | none =>
      exact ⟨_, rfl, ⟨_, findA_insertSortedA_self r.node_store fid _⟩⟩
  | some n =>
      exact ⟨_, rfl, ⟨_, findA_setA_self r.node_store fid _⟩⟩

/-- SetEvictable succeeds on any stored frame. -/
theorem setEvictable_ok (r : LRUKReplacer) (fid : Nat) (ev : Bool) (n : LRUKNode)
    (h : findA r.node_store fid = some n) :
    ∃ r2, r.setEvictable fid ev = Except.ok r2 := by
  unfold LRUKReplacer.setEvictable
  rw [h]
  exact ⟨_, rfl⟩

/-! ### Claim C1: the FetchPage hit path -/

/-- Claim C1 (amended).  On a page-table hit, FetchPage records an access
for the page's frame in the replacer, marks the frame non-evictable, and
returns the frame; the frame array - hence the frame's pin count, dirty
flag and page id - is untouched.  In particular the pin count is NOT
incremented: the source's hit path performs no pin-count update at all.
The range hypothesis matches RecordAccess's own check; frame ids held in
the page table are below pool_size = replacer_size_. -/
theorem fetch_page_hit_records_access_pin_unchanged
    (bpm : BufferPoolManager) (pid : Int) (fid : Nat)
    (hres : findA bpm.page_table pid = some fid)
    (hfid : fid ≤ bpm.replacer.replacer_size) :
    ∃ r1 r2,
      bpm.replacer.recordAccess fid = Except.ok r1 ∧
      r1.setEvictable fid false = Except.ok r2 ∧
      bpm.fetchPage pid = Except.ok (some fid, { bpm with replacer := r2 }) ∧
      ({ bpm with replacer := r2 } : BufferPoolManager).pages = bpm.pages := by
  obtain ⟨r1, hr1, n, hn⟩ := recordAccess_ok bpm.replacer fid hfid
  obtain ⟨r2, hr2⟩ := setEvictable_ok r1 fid false n hn
  refine ⟨r1, r2, hr1, hr2, ?_, rfl⟩
  simp only [BufferPoolManager.fetchPage, hres, hr1, hr2]

/-- Witness for the amended C1 at the concrete hit state: page 5 resides
in frame 0 with pin count 3, and the hit leaves the pin count at 3. -/
theorem fetch_page_hit_records_access_pin_unchanged_witness :
    (findA fetchHitState.page_table 5 = some 0 ∧
      0 ≤ fetchHitState.replacer.replacer_size) ∧
    (∃ r1 r2,
      fetchHitState.replacer.recordAccess 0 = Except.ok r1 ∧
      r1.setEvictable 0 false = Except.ok r2 ∧
      fetchHitState.fetchPage 5 = Except.ok (some 0, { fetchHitState with replacer := r2 }) ∧
      ({ fetchHitState with replacer := r2 } : BufferPoolManager).pages
        = fetchHitState.pages) :=
  ⟨⟨rfl, by decide⟩,
    fetch_page_hit_records_access_pin_unchanged fetchHitState 5 0 rfl (by decide)⟩

/-- Counterexample to claim C1 as stated: at fetchHitState the hit-path
fetch of page 5 leaves frame 0's pin count at 3 instead of incrementing
it to 4. -/
theorem fetch_page_hit_pin_count_cex :
    (fetchHitState.fetchPage 5).map (fun x => (x.2.getPage 0).pin_count)
      = Except.ok 3 ∧
    (fetchHitState.getPage 0).pin_count = 3 ∧
    ¬ (fetchHitState.fetchPage 5).map (fun x => (x.2.getPage 0).pin_count)
        = Except.ok ((fetchHitState.getPage 0).pin_count + 1) := by
  refine ⟨rfl, rfl, fun hcontra => ?_⟩
  have h3 : (Except.ok (3 : Int) : Except String Int) = Except.ok 4 := hcontra
  exact absurd (Except.ok.inj h3) (by decide)

/-! ### Claim C2: FlushPage -/

/-- Claim C2 (amended).  FlushPage returns true exactly when the page is
resident.  On success the bytes written to disk are the bytes the frame
held when the call was made, after which the frame's memory is reset to
zeros and its dirty flag cleared; on failure nothing changes. -/
theorem flush_page_spec (bpm : BufferPoolManager) (pid : Int) :
    ((bpm.flushPage pid).1 = true ↔ (findA bpm.page_table pid).isSome = true) ∧
    (∀ fid, findA bpm.page_table pid = some fid →
      bpm.flushPage pid = (true,
        { bpm with disk := setA bpm.disk pid (bpm.getPage fid).data,
                   pages := bpm.pages.set fid
                     { bpm.getPage fid with data := 0, is_dirty := false } })) ∧
    (findA bpm.page_table pid = none → bpm.flushPage pid = (false, bpm)) := by
  refine ⟨?_, fun fid h => ?_, fun h => ?_⟩
  · cases h : findA bpm.page_table pid with
    | none => simp [BufferPoolManager.flushPage, h]
    | some fid => simp [BufferPoolManager.flushPage, h]
  · simp [BufferPoolManager.flushPage, h]
  · simp [BufferPoolManager.flushPage, h]

/-- Counterexample to claim C2 as stated: flushing resident dirty page 5
writes content 7 to disk but resets the frame's memory to 0, so the disk
copy differs from the in-memory frame afterwards. -/
theorem flush_page_disk_differs_from_frame_cex :
    (flushState.flushPage 5).1 = true ∧
    findA (flushState.flushPage 5).2.disk 5 = some 7 ∧
    ((flushState.flushPage 5).2.getPage 0).data = 0 ∧
    ¬ findA (flushState.flushPage 5).2.disk 5
        = some ((flushState.flushPage 5).2.getPage 0).data := by
  refine ⟨rfl, rfl, rfl, fun hcontra => ?_⟩
  have h7 : (some (7 : Nat) : Option Nat) = some 0 := hcontra
  exact absurd (Option.some.inj h7) (by decide)

/-! ### Claim C4: FlushAllPages -/

/-- Claim C4 fails on the code: FlushAllPages writes every resident page
to disk from its frame, but its second loop indexes the frame array by
PAGE id (pages_[it->first]) instead of frame id when resetting memory
and clearing dirty flags.  At flushAllState, page 1 resides in frame 0:
its bytes (7) are written to disk, yet frame 0 stays dirty, while the
unrelated free frame 1 has its buffer reset from 4 to 0. -/
theorem flush_all_pages_wrong_frame_bug :
    findA flushAllState.page_table 1 = some 0 ∧
    (flushAllState.getPage 0).is_dirty = true ∧
    findA flushAllState.flushAllPages.disk 1 = some 7 ∧
    (flushAllState.flushAllPages.getPage 0).is_dirty = true ∧
    (flushAllState.flushAllPages.getPage 1).data = 0 ∧
    (flushAllState.getPage 1).data = 4 :=
  ⟨rfl, rfl, rfl, rfl, rfl, rfl⟩

/-! ### Claim C5: DeletePage -/

/-- Claim C5.  DeletePage returns true on an absent page with the state
unchanged; returns false on a resident pinned page with the state
unchanged; otherwise it writes the page back when dirty, erases the
page-table entry, removes the frame's node from the replacer, resets the
frame's metadata (pin count 0, clean, invalid page id) and memory,
appends the frame to the free list, and returns true.  The replacer
hypothesis rules out the throwing Remove path (a stored node for an
unpinned frame is evictable under the pool's pin/evictability
invariant). -/
theorem delete_page_spec (bpm : BufferPoolManager) (pid : Int) :
    (findA bpm.page_table pid = none → bpm.deletePage pid = Except.ok (true, bpm)) ∧
    (∀ fid, findA bpm.page_table pid = some fid →
      ((bpm.getPage fid).pin_count > 0 → bpm.deletePage pid = Except.ok (false, bpm)) ∧
      (¬ (bpm.getPage fid).pin_count > 0 →
        (∀ n, findA bpm.replacer.node_store fid = some n → n.is_evictable = true) →
        ∃ rep, bpm.replacer.remove fid = Except.ok rep ∧
          bpm.deletePage pid = Except.ok (true,
            { bpm with
              disk := if (bpm.getPage fid).is_dirty = true
                      then setA bpm.disk pid (bpm.getPage fid).data else bpm.disk,
              page_table := eraseA bpm.page_table pid,
              replacer := rep,
              pages := bpm.pages.set fid
                { page_id := -1, pin_count := 0, is_dirty := false, data := 0 },
              free_list := bpm.free_list ++ [fid] }))) := by
  refine ⟨fun h => ?_, fun fid h => ⟨fun hpin => ?_, fun hpin hrep => ?_⟩⟩
  · unfold BufferPoolManager.deletePage
    rw [h]
  · unfold BufferPoolManager.deletePage
    rw [h]
    simp only [if_pos hpin]
  · have hrem : ∃ rep, bpm.replacer.remove fid = Except.ok rep := by
      unfold LRUKReplacer.remove
      cases hfind : findA bpm.replacer.node_store fid with
      | none => exact ⟨_, rfl⟩
      | some n =>
          have hev := hrep n hfind
          exact Exists.intro
            { bpm.replacer with
              node_store := eraseA bpm.replacer.node_store fid,
              curr_size := bpm.replacer.curr_size - 1 }
            (by simp [hev])
    obtain ⟨rep, hrepok⟩ := hrem
    refine ⟨rep, hrepok, ?_⟩
    simp only [BufferPoolManager.deletePage, h, if_neg hpin, hrepok]

/-- Witness for C5 at deleteState: page 5 is resident in frame 0,
unpinned, dirty and evictable, and DeletePage deletes it. -/
theorem delete_page_spec_witness :
    (findA deleteState.page_table 5 = none →
      deleteState.deletePage 5 = Except.ok (true, deleteState)) ∧
    (∀ fid, findA deleteState.page_table 5 = some fid →
      ((deleteState.getPage fid).pin_count > 0 →
        deleteState.deletePage 5 = Except.ok (false, deleteState)) ∧
      (¬ (deleteState.getPage fid).pin_count > 0 →
        (∀ n, findA deleteState.replacer.node_store fid = some n → n.is_evictable = true) →
        ∃ rep, deleteState.replacer.remove fid = Except.ok rep ∧
          deleteState.deletePage 5 = Except.ok (true,
            { deleteState with
              disk := if (deleteState.getPage fid).is_dirty = true
                      then setA deleteState.disk 5 (deleteState.getPage fid).data
                      else deleteState.disk,
              page_table := eraseA deleteState.page_table 5,
              replacer := rep,
              pages := deleteState.pages.set fid
                { page_id := -1, pin_count := 0, is_dirty := false, data := 0 },
              free_list := deleteState.free_list ++ [fid] }))) :=
  delete_page_spec deleteState 5

/-! ### Claim C6: the RecordAccess range check -/

/-- Claim C6 fails on the code: RecordAccess rejects only frame ids
strictly greater than replacer_size_ (the pool size), so the boundary
frame id equal to the pool size is accepted without throwing, while the
claim demands a throw for every frame id greater than or equal to the
pool size.  The second conjunct shows the check that is actually
performed. -/
theorem record_access_boundary (r : LRUKReplacer) :
    (∃ r1, r.recordAccess r.replacer_size = Except.ok r1) ∧
    (∀ fid, r.replacer_size < fid →
      r.recordAccess fid
        = Except.error "RecordAccess: frame_id is bigger than replacer_size_") := by
  constructor
  · unfold LRUKReplacer.recordAccess
    rw [if_neg (lt_irrefl r.replacer_size)]
    cases hfind : findA r.node_store r.replacer_size with
    | none => exact ⟨_, rfl⟩
    | some n => exact ⟨_, rfl⟩
  · intro fid hlt
    unfold LRUKReplacer.recordAccess
    rw [if_pos hlt]

/-! ### Claim C10: page guard upgrades dereference the page pointer -/

/-- Claim C10.  UpgradeRead and UpgradeWrite latch through the guard's
page pointer with no null check, so they are defined exactly when the
guard is non-empty (page pointer non-null); on an empty guard the
dereference is a null-pointer dereference (modelled as none).  Drop (and
the destructor, which calls Drop) on a guard with a null page pointer is
a safe no-op on the pool. -/
theorem page_guard_upgrade_requires_page (g : BasicPageGuard) (st : BufferPoolManager) :
    ((g.upgradeRead.isSome = true) ↔ g.page?.isSome = true) ∧
    ((g.upgradeWrite.isSome = true) ↔ g.page?.isSome = true) ∧
    (g.page? = none → g.drop st = Except.ok (BasicPageGuard.reset, st)) := by
  refine ⟨?_, ?_, fun h => ?_⟩
  · cases hp : g.page? with
    | none => simp [BasicPageGuard.upgradeRead, hp]
    | some fid => simp [BasicPageGuard.upgradeRead, hp]
  · cases hp : g.page? with
    | none => simp [BasicPageGuard.upgradeWrite, hp]
    | some fid => simp [BasicPageGuard.upgradeWrite, hp]
  · unfold BasicPageGuard.drop
    cases hb : g.bpm? <;> rw [h]

/-- Witness for C3 at a concrete well-formed replacer with two evictable
frames, one with fewer than K accesses. -/
theorem lruk_evict_max_backward_kdistance_witness :
    ({ node_store := [(0, { k := 1, history := [5], is_evictable := true }),
                      (1, { k := 2, history := [1, 3], is_evictable := true })],
       curr_size := 2, current_timestamp := 6, replacer_size := 3,
       k := 2 } : LRUKReplacer).WF ∧
    (({ node_store := [(0, { k := 1, history := [5], is_evictable := true }),
                       (1, { k := 2, history := [1, 3], is_evictable := true })],
        curr_size := 2, current_timestamp := 6, replacer_size := 3,
        k := 2 } : LRUKReplacer).curr_size = 0 →
      ({ node_store := [(0, { k := 1, history := [5], is_evictable := true }),
                        (1, { k := 2, history := [1, 3], is_evictable := true })],
         curr_size := 2, current_timestamp := 6, replacer_size := 3,
         k := 2 } : LRUKReplacer).evict
        = (none, { node_store := [(0, { k := 1, history := [5], is_evictable := true }),
                                  (1, { k := 2, history := [1, 3], is_evictable := true })],
                   curr_size := 2, current_timestamp := 6, replacer_size := 3, k := 2 })) ∧
    (0 < ({ node_store := [(0, { k := 1, history := [5], is_evictable := true }),
                           (1, { k := 2, history := [1, 3], is_evictable := true })],
            curr_size := 2, current_timestamp := 6, replacer_size := 3,
            k := 2 } : LRUKReplacer).curr_size →
      ∃ v nv,
        ({ node_store := [(0, { k := 1, history := [5], is_evictable := true }),
                          (1, { k := 2, history := [1, 3], is_evictable := true })],
           curr_size := 2, current_timestamp := 6, replacer_size := 3,
           k := 2 } : LRUKReplacer).evict
          = (some v,
            { ({ node_store := [(0, { k := 1, history := [5], is_evictable := true }),
                                (1, { k := 2, history := [1, 3], is_evictable := true })],
                 curr_size := 2, current_timestamp := 6, replacer_size := 3,
                 k := 2 } : LRUKReplacer) with
                node_store := eraseA [(0, { k := 1, history := [5], is_evictable := true }),
                                      (1, { k := 2, history := [1, 3], is_evictable := true })] v,
                curr_size := 2 - 1 }) ∧
        findA [(0, { k := 1, history := [5], is_evictable := true }),
               (1, { k := 2, history := [1, 3], is_evictable := true })] v = some nv ∧
        nv.is_evictable = true ∧
        ∀ e ∈ [((0 : Nat), ({ k := 1, history := [5], is_evictable := true } : LRUKNode)),
               (1, { k := 2, history := [1, 3], is_evictable := true })],
          e.2.is_evictable = true → kdistPrefGE 2 6 nv e.2) := by
  refine ⟨?_, ?_⟩
  · refine ⟨by decide, ?_, by decide⟩
    intro e he
    fin_cases he <;> exact ⟨by decide, by decide, by decide, by decide⟩
  · exact (lruk_evict_max_backward_kdistance _
      ⟨by decide, by intro e he; fin_cases he <;> exact ⟨by decide, by decide, by decide, by decide⟩,
       by decide⟩)

end Bustub
